import Mathlib

/-!
Shallow embedding of the MrMustard core algebra and theorems about it.

Embedded source files:
* mrmustard/lab/representations/data/matvec_data.py  (MatVecData)
* mrmustard/lab/representations/data/abc_data.py     (ABCData)
* mrmustard/plugins/gaussianplugin.py                (general_dyne, trace, purity)
* mrmustard/math/compactFockAmplitudes.py            (fock_representation_compact,
  scratch-array allocation)

Numpy arrays are embedded as index functions (entries beyond the tracked
dimension are never read by the embedded operations), together with an explicit
dimension where the source relies on the array shape.  Complex scalars are exact
elements of ℂ.  Fallible numeric calls return Except.
-/

namespace MrMustard

/-- An entry of a batch of square complex matrices, as an index function. -/
abbrev CMat := ℕ → ℕ → ℂ

/-- A complex vector, as an index function. -/
abbrev CVec := ℕ → ℂ

/-- Python range(a, b) as a list (empty when b ≤ a). -/
def pyRange (a b : ℕ) : List ℕ := List.range' a (b - a)

/-- math.block_diag(a1, a2) where a1 is n x n. -/
def blockDiag (n : ℕ) (a1 a2 : CMat) : CMat := fun r s =>
  if r < n then (if s < n then a1 r s else 0)
  else (if s < n then 0 else a2 (r - n) (s - n))

/-- math.concat([v1, v2], axis=-1) where v1 has length n. -/
def vecConcat (n : ℕ) (v1 v2 : CVec) : CVec := fun r =>
  if r < n then v1 r else v2 (r - n)

/-- math.gather(a, l, axis=rows). -/
def gatherRows (l : List ℕ) (a : CMat) : CMat := fun r s => a (l.getD r 0) s

/-- math.gather(a, l, axis=cols). -/
def gatherCols (l : List ℕ) (a : CMat) : CMat := fun r s => a r (l.getD s 0)

/-- math.gather(v, l) on a vector. -/
def gatherVec (l : List ℕ) (v : CVec) : CVec := fun r => v (l.getD r 0)

/-- math.matvec(a, x) for an n x n matrix. -/
noncomputable def matvecC (n : ℕ) (a : CMat) (x : CVec) : CVec := fun r =>
  ∑ s in Finset.range n, a r s * x s

/-- n x n matrix product. -/
noncomputable def matMulC (n : ℕ) (a b : CMat) : CMat := fun r s =>
  ∑ t in Finset.range n, a r t * b t s

/-- math.transpose. -/
def transposeC (a : CMat) : CMat := fun r s => a s r

/-- math.sqrt on a complex scalar: the principal square root. -/
noncomputable def csqrt (z : ℂ) : ℂ := z ^ ((1 : ℂ) / 2)

/-- MatVecData (matvec_data.py): batched matrix-, vector- and scalar-like data
with the common variable dimension, plus the contract_idxs annotation that
ABCData.__getitem__ stores on the object (empty until set, never cleared). -/
structure MatVecData where
  dim : ℕ
  mat : List CMat
  vec : List CVec
  coeffs : List ℂ
  contract_idxs : List ℕ

/-- ABCData (abc_data.py) is MatVecData with A, b, c naming mat, vec, coeffs. -/
abbrev ABCData := MatVecData

/-- ABCData.A property. -/
def ABCData.A (d : ABCData) : List CMat := d.mat

/-- ABCData.b property. -/
def ABCData.b (d : ABCData) : List CVec := d.vec

/-- ABCData.c property. -/
def ABCData.c (d : ABCData) : List ℂ := d.coeffs

/-- One Bargmann term exp(x^T A x / 2 + x^T b) over n variables
(the exponential inside ABCData.value). -/
noncomputable def qexp (n : ℕ) (a : CMat) (bv : CVec) (x : CVec) : ℂ :=
  Complex.exp ((1 / 2) * ∑ r in Finset.range n, x r * matvecC n a x r
    + ∑ r in Finset.range n, x r * bv r)

/-- ABCData.value: sum over zip(A, b, c) of exp(x^T A x / 2 + x^T b) * c. -/
noncomputable def ABCData.value (d : ABCData) (x : CVec) : ℂ :=
  ((d.A.zip (d.b.zip d.c)).map (fun t => t.2.2 * qexp d.dim t.1 t.2.1 x)).sum

/-- ABCData.__and__: for every pair of batch entries, block-diagonal the A,
concatenate the b, multiply the c; the result is a fresh object (no marks). -/
def ABCData.and (x y : ABCData) : ABCData where
  dim := x.dim + y.dim
  mat := x.A.flatMap fun a1 => y.A.map fun a2 => blockDiag x.dim a1 a2
  vec := x.b.flatMap fun b1 => y.b.map fun b2 => vecConcat x.dim b1 b2
  coeffs := x.c.flatMap fun c1 => y.c.map fun c2 => c1 * c2
  contract_idxs := []

/-- ABCData.__getitem__: store the marked indices on the object and return it;
A, b, c are untouched. -/
def ABCData.getitem (d : ABCData) (idx : List ℕ) : ABCData :=
  ⟨d.dim, d.mat, d.vec, d.coeffs, idx⟩

/-- Failure raised by a Bargmann contraction on a non-invertible coupling block. -/
inductive ContractionErr
  | SingularContraction
deriving DecidableEq

/-- Determinant of a 2 x 2 block. -/
def det2 (m : CMat) : ℂ := m 0 0 * m 1 1 - m 0 1 * m 1 0

/-- Modelled from the spec: math.inv, the backend adapter inverse consumed by
ABCData.__matmul__ (mrmustard.math is not under src/).  Per spec sections 4.1
and 7, a contraction whose 2 x 2 coupling block M is non-invertible fails with
SingularContraction, raised at the point of detection; on an invertible block
this is the ordinary 2 x 2 inverse. -/
noncomputable def inv2 (m : CMat) : Except ContractionErr CMat :=
  if det2 m = 0 then .error .SingularContraction
  else .ok fun r s =>
    if r = 0 then (if s = 0 then m 1 1 / det2 m else -(m 0 1) / det2 m)
    else (if s = 0 then -(m 1 0) / det2 m else m 0 0 / det2 m)

/-- The kept indices: list(range(i)) + list(range(i+1, j)) + list(range(j+1, dim)). -/
def noijL (i j dim : ℕ) : List ℕ := List.range i ++ pyRange (i + 1) j ++ pyRange (j + 1) dim

/-- The 2 x 2 coupling block M of the source: rows ((A i i, A j i - 1), (A i j - 1, A j j)). -/
def couplingM (a : CMat) (i j : ℕ) : CMat := fun r s =>
  if r = 0 then (if s = 0 then a i i else a j i - 1)
  else (if s = 0 then a i j - 1 else a j j)

/-- D: the columns i and j of the joint A, rows gathered at the kept indices. -/
def couplingD (a : CMat) (i j : ℕ) (no : List ℕ) : CMat :=
  gatherRows no (fun r s => if s = 0 then a r i else a r j)

/-- The 2-vector (b i, b j) of marked entries of the joint b. -/
def couplingB (bv : CVec) (i j : ℕ) : CVec := fun s => if s = 0 then bv i else bv j

/-- One batch entry of one contraction step: newA = Abar - D Minv D^T,
newb = bbar - D Minv b_, newc = c * exp(-b_^T Minv b_ / 2) / sqrt(-det M),
with the einsum index conventions of the source. -/
noncomputable def stepEntry (i j dim : ℕ) (a : CMat) (bv : CVec) (c : ℂ) :
    Except ContractionErr (CMat × CVec × ℂ) :=
  (inv2 (couplingM a i j)).bind fun minv => .ok
    (fun r l => gatherCols (noijL i j dim) (gatherRows (noijL i j dim) a) r l -
       ∑ p in Finset.range 2, ∑ q in Finset.range 2,
         couplingD a i j (noijL i j dim) r p * minv p q * couplingD a i j (noijL i j dim) l q,
     fun r => gatherVec (noijL i j dim) bv r -
       ∑ p in Finset.range 2, ∑ q in Finset.range 2,
         couplingD a i j (noijL i j dim) r p * minv p q * couplingB bv i j q,
     c * Complex.exp (-(∑ p in Finset.range 2, ∑ q in Finset.range 2,
         couplingB bv i j p * minv p q * couplingB bv i j q) / 2) / csqrt (-det2 (couplingM a i j)))

/-- State threaded through the __matmul__ loop: the latest newA / newb / newc
(with the dimension of newA) and the i_prev / j_prev registers; none models the
1e32 sentinel, which no array index ever exceeds. -/
structure MMState where
  dim : ℕ
  mat : List CMat
  vec : List CVec
  coeffs : List ℂ
  iPrev : Option ℕ
  jPrev : Option ℕ

/-- int(prev < i) for the sentinel-or-index registers. -/
def sentLt (p : Option ℕ) (i : ℕ) : Bool :=
  match p with
  | none => false
  | some v => v < i

/-- Error-propagating map over a batch (the Except specialization of mapM,
written structurally). -/
noncomputable def exceptMapBatch (f : CMat × CVec × ℂ → Except ContractionErr (CMat × CVec × ℂ)) :
    List (CMat × CVec × ℂ) → Except ContractionErr (List (CMat × CVec × ℂ))
  | [] => .ok []
  | t :: ts => (f t).bind fun r => (exceptMapBatch f ts).bind fun rs => .ok (r :: rs)

/-- One iteration of the __matmul__ loop over a raw marked pair p: adjust the
indices against i_prev / j_prev, then recompute newA, newb, newc from every
batch entry of the (never-updated) joint triple graph. -/
noncomputable def matmulStep (graph : ABCData) (selfDim : ℕ) (st : MMState) (p : ℕ × ℕ) :
    Except ContractionErr MMState :=
  (exceptMapBatch
      (fun t => stepEntry (p.1 - (if sentLt st.iPrev p.1 then 1 else 0))
        (p.2 + selfDim - (if sentLt st.jPrev p.2 then 1 else 0)) graph.dim t.1 t.2.1 t.2.2)
      (graph.A.zip (graph.b.zip graph.c))).bind fun res => .ok
    ⟨(noijL (p.1 - (if sentLt st.iPrev p.1 then 1 else 0))
        (p.2 + selfDim - (if sentLt st.jPrev p.2 then 1 else 0)) graph.dim).length,
      res.map Prod.fst, res.map (fun t => t.2.1), res.map (fun t => t.2.2),
      some (p.1 - (if sentLt st.iPrev p.1 then 1 else 0)),
      some (p.2 + selfDim - (if sentLt st.jPrev p.2 then 1 else 0))⟩

/-- The __matmul__ loop over the zipped marked pairs (a left fold in Except). -/
noncomputable def matmulLoop (graph : ABCData) (selfDim : ℕ) :
    MMState → List (ℕ × ℕ) → Except ContractionErr MMState
  | st, [] => .ok st
  | st, p :: ps => (matmulStep graph selfDim st p).bind fun st2 =>
      matmulLoop graph selfDim st2 ps

/-- ABCData.__matmul__: contraction across the marked index pairs; the marked
lists are zipped in lockstep, the joint triple graph = self & other is built
once, and the loop state starts at its components (so an empty zip returns the
joint triple itself).  The returned object is fresh (no marks). -/
noncomputable def ABCData.matmul (x y : ABCData) : Except ContractionErr ABCData :=
  (matmulLoop (x.and y) x.dim
      ⟨(x.and y).dim, (x.and y).A, (x.and y).b, (x.and y).c, none, none⟩
      (x.contract_idxs.zip y.contract_idxs)).bind fun st =>
    .ok ⟨st.dim, st.mat, st.vec, st.coeffs, []⟩

/-- Modelled from the spec: reorder_matrix_from_qpqp_to_qqpp
(mrmustard.physics.gaussian is not under src/): the d x d permutation matrix
taking interleaved (q1, p1, q2, p2, ...) coordinates to grouped
(q1, ..., qN, p1, ..., pN) coordinates. -/
def reorderQpqpToQqpp (d : ℕ) : CMat := fun r s =>
  if r < d / 2 then (if s = 2 * r then 1 else 0)
  else if r < d then (if s = 2 * (r - d / 2) + 1 then 1 else 0)
  else 0

/-- Modelled from the spec: Data.same (mrmustard/lab/representations/data/data.py
is not under src/), the numerically-close comparison of two collections of
arrays; in this exact-arithmetic embedding it is equality. -/
def sameMatVec (x y : MatVecData) : Prop := x.mat = y.mat ∧ x.vec = y.vec

open scoped Classical in
/-- MatVecData.__add__: if mat and vec agree, keep them and add coeffs
elementwise; otherwise concatenate the batches, conjugate every mat by the
qpqp-to-qqpp reorder matrix, apply it to every vec, and concatenate coeffs. -/
noncomputable def MatVecData.add (x y : MatVecData) : MatVecData :=
  if sameMatVec x y then
    ⟨x.dim, x.mat, x.vec, List.zipWith (· + ·) x.coeffs y.coeffs, []⟩
  else
    ⟨x.dim,
     (x.mat ++ y.mat).map fun m =>
       matMulC x.dim (matMulC x.dim (reorderQpqpToQqpp x.dim) m)
         (transposeC (reorderQpqpToQqpp x.dim)),
     (x.vec ++ y.vec).map fun v => matvecC x.dim (reorderQpqpToQqpp x.dim) v,
     x.coeffs ++ y.coeffs, []⟩

/-- A real matrix, as an index function. -/
abbrev RMat := ℕ → ℕ → ℝ

/-- A real vector, as an index function. -/
abbrev RVec := ℕ → ℝ

/-- Backend matvec over the first n coordinates. -/
noncomputable def matvecR (n : ℕ) (a : RMat) (x : RVec) : RVec := fun r =>
  ∑ s in Finset.range n, a r s * x s

/-- Backend matmul with inner dimension n. -/
noncomputable def matMulR (n : ℕ) (a b : RMat) : RMat := fun r s =>
  ∑ t in Finset.range n, a r t * b t s

/-- Backend gather on rows. -/
def gatherRowsR (l : List ℕ) (a : RMat) : RMat := fun r s => a (l.getD r 0) s

/-- Backend gather on columns. -/
def gatherColsR (l : List ℕ) (a : RMat) : RMat := fun r s => a r (l.getD s 0)

/-- Backend gather on a vector. -/
def gatherVecR (l : List ℕ) (v : RVec) : RVec := fun r => v (l.getD r 0)

/-- Backend transpose. -/
def transposeR (a : RMat) : RMat := fun r s => a s r

/-- The index list Amodes + [i + N for i in Amodes] of partition_cov / partition_means. -/
def aIndicesL (amodes : List ℕ) (nModes : ℕ) : List ℕ := amodes ++ amodes.map (· + nModes)

/-- The complement index list of partition_cov / partition_means:
[i for i in range(N) if i not in Amodes] and the same shifted by N. -/
def bIndicesL (amodes : List ℕ) (nModes : ℕ) : List ℕ :=
  ((List.range nModes).filter (fun i => i ∉ amodes)) ++
    (((List.range nModes).filter (fun i => i ∉ amodes)).map (· + nModes))

/-- GaussianPlugin.partition_cov: the (A block, B block, AB block) of a covariance
matrix of size covDim = 2N, gathered at the A and B index lists. -/
def partition_cov (covDim : ℕ) (cov : RMat) (amodes : List ℕ) : RMat × RMat × RMat :=
  (gatherRowsR (aIndicesL amodes (covDim / 2)) (gatherColsR (aIndicesL amodes (covDim / 2)) cov),
   gatherRowsR (bIndicesL amodes (covDim / 2)) (gatherColsR (bIndicesL amodes (covDim / 2)) cov),
   gatherRowsR (aIndicesL amodes (covDim / 2)) (gatherColsR (bIndicesL amodes (covDim / 2)) cov))

/-- GaussianPlugin.partition_means: the (A, B) entries of the means vector. -/
def partition_means (covDim : ℕ) (means : RVec) (amodes : List ℕ) : RVec × RVec :=
  (gatherVecR (aIndicesL amodes (covDim / 2)) means,
   gatherVecR (bIndicesL amodes (covDim / 2)) means)

/-- View of the first n x n block as a Mathlib matrix. -/
def toFinR (n : ℕ) (m : RMat) : Matrix (Fin n) (Fin n) ℝ := Matrix.of fun i j => m i.1 j.1

/-- Back from a Mathlib matrix to an index function. -/
def ofFinR {n : ℕ} (M : Matrix (Fin n) (Fin n) ℝ) : RMat := fun r s =>
  if h : r < n ∧ s < n then M ⟨r, h.1⟩ ⟨s, h.2⟩ else 0

/-- Modelled from the spec: self._backend.inv, the backend adapter inverse of an
n x n matrix (the backend is not under src/). -/
noncomputable def invR (n : ℕ) (m : RMat) : RMat := ofFinR (toFinR n m)⁻¹

/-- Modelled from the spec: self._backend.det of an n x n matrix. -/
noncomputable def detR (n : ℕ) (m : RMat) : ℝ := (toFinR n m).det

/-- Result record of general_dyne: outcome probability density, post-measurement
covariance (with its dimension) and post-measurement means. -/
structure DyneResult where
  prob : ℝ
  covDim : ℕ
  cov : RMat
  means : RVec

/-- GaussianPlugin.general_dyne (gaussianplugin.py lines 411-438).  The prob
numerator reproduces the source expression with its exact operator precedence:
sum over r of (matvec(inv, proj_means - b) r * proj_means r - b r). -/
noncomputable def general_dyne (covDim : ℕ) (cov : RMat) (means : RVec)
    (projDim : ℕ) (proj_cov : RMat) (proj_means : RVec) (modes : List ℕ) (hbar : ℝ) :
    DyneResult :=
  let nModes := covDim / 2
  let nB := projDim / 2
  let amodes := (List.range nModes).filter (fun i => i ∉ modes)
  let pc := partition_cov covDim cov amodes
  let pm := partition_means covDim means amodes
  let bpc : RMat := fun r s => pc.2.1 r s + proj_cov r s
  let inv := invR (2 * nB) bpc
  let abinv := matMulR (2 * nB) pc.2.2 inv
  let dvec : RVec := fun r => proj_means r - pm.2 r
  DyneResult.mk
    (Real.exp (-(∑ r in Finset.range (2 * nB),
        (matvecR (2 * nB) inv dvec r * proj_means r - pm.2 r)))
      / (Real.pi ^ nB * hbar ^ (-(nB : ℤ)) * Real.sqrt (detR (2 * nB) bpc)))
    (2 * (nModes - nB))
    (fun r s => pc.1 r s - matMulR (2 * nB) abinv (transposeR pc.2.2) r s)
    (fun r => pm.1 r + matvecR (2 * nB) abinv dvec r)

/-- GaussianPlugin.trace (gaussianplugin.py lines 450-464): gather the rows and
columns of cov and the entries of means at
Aindices = [i for i in range(N) if i not in Bmodes]; the first component is the
resulting array dimension len(Aindices). -/
def GaussianPlugin.trace (covDim : ℕ) (cov : RMat) (means : RVec) (bmodes : List ℕ) :
    ℕ × RMat × RVec :=
  let aind := (List.range (covDim / 2)).filter (fun i => i ∉ bmodes)
  (aind.length, gatherColsR aind (gatherRowsR aind cov), gatherVecR aind means)

/-- GaussianPlugin.purity: 1 / sqrt(det((2 / hbar) * cov)). -/
noncomputable def purity {n : ℕ} (cov : Matrix (Fin n) (Fin n) ℝ) (hbar : ℝ) : ℝ :=
  1 / Real.sqrt (((2 / hbar) • cov).det)

/-- Shape of arr0 in fock_representation_compact: [1, 1] + [cutoff] * M. -/
def arr0Shape (m cutoff : ℕ) : List ℤ := [1, 1] ++ List.replicate m (cutoff : ℤ)

/-- Shape of arr2: [1, M] + [cutoff - 2] + [cutoff] * (M - 1), in python integer
arithmetic (cutoff - 2 may be negative). -/
def arr2Shape (m cutoff : ℕ) : List ℤ :=
  [1, (m : ℤ), (cutoff : ℤ) - 2] ++ List.replicate (m - 1) (cutoff : ℤ)

/-- Shape of arr11: [1, 1, 1] when M = 1, else
[3, M(M-1)/2] + [cutoff - 1] * 2 + [cutoff] * (M - 2). -/
def arr11Shape (m cutoff : ℕ) : List ℤ :=
  if m = 1 then [1, 1, 1]
  else [3, (m : ℤ) * ((m : ℤ) - 1) / 2] ++ List.replicate 2 ((cutoff : ℤ) - 1) ++
    List.replicate (m - 2) (cutoff : ℤ)

/-- Shape of arr1: [1, 2M] + [cutoff - 1] + [cutoff] * (M - 1). -/
def arr1Shape (m cutoff : ℕ) : List ℤ :=
  [1, 2 * (m : ℤ), (cutoff : ℤ) - 1] ++ List.replicate (m - 1) (cutoff : ℤ)

/-- np.zeros succeeds exactly when no requested dimension is negative. -/
def npZerosOk (shape : List ℤ) : Bool := shape.all (fun d => decide (0 ≤ d))

/-- The four scratch allocations performed by fock_representation_compact
(compactFockAmplitudes.py lines 420-427) all succeed: np.zeros raises ValueError
on a negative dimension before the recurrence is ever entered. -/
def fockScratchAllocOk (m cutoff : ℕ) : Bool :=
  npZerosOk (arr0Shape m cutoff) && npZerosOk (arr2Shape m cutoff) &&
  npZerosOk (arr11Shape m cutoff) && npZerosOk (arr1Shape m cutoff)

/-- A two-variable triple with zero quadratic and linear parts and unit constant,
with both of its variables marked for contraction. -/
noncomputable def c1X : ABCData := ⟨2, [fun _ _ => 0], [fun _ => 0], [1], [0, 1]⟩

/-- Concrete one-variable triples and data used at concrete evaluation points. -/
noncomputable def c9X : ABCData := ⟨1, [fun _ _ => 0], [fun _ => 0], [1], []⟩

/-- A one-variable triple with quadratic part [[1]], marked, whose self-contraction
builds a singular coupling block. -/
noncomputable def c4X : ABCData := ⟨1, [fun _ _ => 1], [fun _ => 0], [1], [0]⟩

/-- A single-term batch used for the addition claims. -/
noncomputable def c5X : MatVecData := ⟨1, [fun _ _ => 1], [fun _ => 1], [1], []⟩

/-- Concrete general_dyne inputs: 4 x 4 identity covariance (2-mode vacuum at
hbar = 2) and a zero projector covariance. -/
def gdCov : RMat := fun r s => if r = s then 1 else 0

/-- The zero projector covariance. -/
def gdZeroM : RMat := fun _ _ => 0

/-- Means vector (0, 1, 0, 0). -/
def gdMeansA : RVec := fun r => if r = 1 then 1 else 0

/-- Measurement outcome (5, 0). -/
def gdProjA : RVec := fun r => if r = 0 then 5 else 0

/-- Measurement outcome (4, 0). -/
def gdProjB : RVec := fun r => if r = 0 then 4 else 0

/-- The 2 x 2 identity as an index function (vacuum covariance at hbar = 2). -/
def c6Cov : RMat := fun r s => if r = s then 1 else 0

/-- The ok-payload of stepEntry once the inverse mi of the coupling block is known. -/
noncomputable def stepPayload (i j dim : ℕ) (a : CMat) (bv : CVec) (c : ℂ) (mi : CMat) :
    CMat × CVec × ℂ :=
  (fun r l => gatherCols (noijL i j dim) (gatherRows (noijL i j dim) a) r l -
     ∑ p in Finset.range 2, ∑ q in Finset.range 2,
       couplingD a i j (noijL i j dim) r p * mi p q * couplingD a i j (noijL i j dim) l q,
   fun r => gatherVec (noijL i j dim) bv r -
     ∑ p in Finset.range 2, ∑ q in Finset.range 2,
       couplingD a i j (noijL i j dim) r p * mi p q * couplingB bv i j q,
   c * Complex.exp (-(∑ p in Finset.range 2, ∑ q in Finset.range 2,
       couplingB bv i j p * mi p q * couplingB bv i j q) / 2) /
     csqrt (-det2 (couplingM a i j)))

/-! ### Reduction lemmas for the contraction loop -/

theorem inv2_ok {m : CMat} (h : det2 m ≠ 0) :
    inv2 m = .ok fun r s =>
      if r = 0 then (if s = 0 then m 1 1 / det2 m else -(m 0 1) / det2 m)
      else (if s = 0 then -(m 1 0) / det2 m else m 0 0 / det2 m) := by
  simp [inv2, h]

theorem inv2_err {m : CMat} (h : det2 m = 0) :
    inv2 m = .error .SingularContraction := by
  simp [inv2, h]

theorem stepEntry_ok {i j dim : ℕ} {a : CMat} {bv : CVec} {c : ℂ} {mi : CMat}
    (h : inv2 (couplingM a i j) = .ok mi) :
    stepEntry i j dim a bv c = .ok (stepPayload i j dim a bv c mi) := by
  unfold stepEntry
  rw [h]
  rfl

theorem stepEntry_err {i j dim : ℕ} {a : CMat} {bv : CVec} {c : ℂ} {e : ContractionErr}
    (h : inv2 (couplingM a i j) = .error e) :
    stepEntry i j dim a bv c = .error e := by
  unfold stepEntry
  rw [h]
  rfl

theorem matmulStep_singleton_ok (graph : ABCData) (selfDim : ℕ) (st : MMState)
    (p : ℕ × ℕ) (a : CMat) (bv : CVec) (c : ℂ) (mi : CMat)
    (hm : graph.mat = [a]) (hv : graph.vec = [bv]) (hc : graph.coeffs = [c])
    (hinv : inv2 (couplingM a (p.1 - (if sentLt st.iPrev p.1 then 1 else 0))
      (p.2 + selfDim - (if sentLt st.jPrev p.2 then 1 else 0))) = .ok mi) :
    matmulStep graph selfDim st p = .ok
      ⟨(noijL (p.1 - (if sentLt st.iPrev p.1 then 1 else 0))
          (p.2 + selfDim - (if sentLt st.jPrev p.2 then 1 else 0)) graph.dim).length,
        [(stepPayload (p.1 - (if sentLt st.iPrev p.1 then 1 else 0))
            (p.2 + selfDim - (if sentLt st.jPrev p.2 then 1 else 0)) graph.dim a bv c mi).1],
        [(stepPayload (p.1 - (if sentLt st.iPrev p.1 then 1 else 0))
            (p.2 + selfDim - (if sentLt st.jPrev p.2 then 1 else 0)) graph.dim a bv c mi).2.1],
        [(stepPayload (p.1 - (if sentLt st.iPrev p.1 then 1 else 0))
            (p.2 + selfDim - (if sentLt st.jPrev p.2 then 1 else 0)) graph.dim a bv c mi).2.2],
        some (p.1 - (if sentLt st.iPrev p.1 then 1 else 0)),
        some (p.2 + selfDim - (if sentLt st.jPrev p.2 then 1 else 0))⟩ := by
  unfold matmulStep
  simp only [ABCData.A, ABCData.b, ABCData.c, hm, hv, hc, List.zip_cons_cons,
    List.zip_nil_right, exceptMapBatch]
  rw [stepEntry_ok hinv]
  rfl

theorem matmulStep_err_head (graph : ABCData) (selfDim : ℕ) (st : MMState)
    (p : ℕ × ℕ) (a : CMat) (bv : CVec) (c : ℂ) (e : ContractionErr)
    (ma : List CMat) (mb : List CVec) (mc : List ℂ)
    (hm : graph.mat = a :: ma) (hv : graph.vec = bv :: mb) (hc : graph.coeffs = c :: mc)
    (herr : stepEntry (p.1 - (if sentLt st.iPrev p.1 then 1 else 0))
      (p.2 + selfDim - (if sentLt st.jPrev p.2 then 1 else 0)) graph.dim a bv c = .error e) :
    matmulStep graph selfDim st p = .error e := by
  unfold matmulStep
  simp only [ABCData.A, ABCData.b, ABCData.c, hm, hv, hc, List.zip_cons_cons, exceptMapBatch]
  rw [herr]
  rfl

theorem exc_bind_ok {α β : Type} (a : α) (f : α → Except ContractionErr β) :
    (Except.ok a : Except ContractionErr α).bind f = f a := rfl

theorem exc_bind_err {α β : Type} (e : ContractionErr) (f : α → Except ContractionErr β) :
    (Except.error e : Except ContractionErr α).bind f = .error e := rfl

/-! ### Claim C1: multi-pair contraction -/

set_option maxHeartbeats 1000000 in
/-- C1: contracting two marked pairs.  The code returns a triple that still has
2 variables because each loop iteration recomputes newA, newb, newc from the
original joint system; the claimed once-per-pair iterated reduction would leave
self.dim + other.dim - 2k = 0 variables. -/
theorem c1_matmul_keeps_two_variables :
    (c1X.matmul c1X).map MatVecData.dim = Except.ok 2 ∧ c1X.dim + c1X.dim - 2 * 2 = 0 := by
  constructor
  · unfold ABCData.matmul
    simp only [c1X, ABCData.and, ABCData.A, ABCData.b, ABCData.c, matmulLoop, matmulStep,
      exceptMapBatch, stepEntry, sentLt, List.zip_cons_cons, List.zip_nil_right,
      List.flatMap_cons, List.map_cons, List.map_nil, List.flatMap_nil, List.append_nil,
      Bool.false_eq_true, if_false, if_true, Nat.sub_zero, Nat.add_zero, Nat.zero_add,
      reduceIte, Nat.reduceSub, Nat.reduceAdd]
    rw [inv2_ok (show det2 (couplingM (blockDiag 2 (fun _ _ => 0) (fun _ _ => 0)) 0 2) ≠ 0 from by
      norm_num [det2, couplingM, blockDiag])]
    simp only [exc_bind_ok, Nat.lt_irrefl, decide_True, decide_False, Nat.reduceLT,
      reduceIte, Nat.reduceSub, if_true, if_false, Bool.false_eq_true, Nat.sub_zero]
    rw [inv2_ok (show det2 (couplingM (blockDiag 2 (fun _ _ => 0) (fun _ _ => 0)) 0 3) ≠ 0 from by
      norm_num [det2, couplingM, blockDiag])]
    simp only [exc_bind_ok]
    norm_num [noijL, pyRange]
    rfl
  · rfl

/-! ### Claim C2: Fock engine scratch allocation at cutoff 1 -/

/-- C2: the claim requires every call with cutoff ≥ 1 to succeed, but at
M = 1, cutoff = 1 the scratch allocation of fock_representation_compact fails:
arr2 would need dimension cutoff - 2 = -1 and np.zeros raises, so the call
never reaches the recurrence. -/
theorem c2_fock_alloc_fails_at_cutoff_one :
    fockScratchAllocOk 1 1 = false ∧ arr2Shape 1 1 = [1, 1, -1] := by
  constructor
  · rfl
  · rfl

/-! ### Claim C6: partial trace dimensions -/

/-- C6: tracing out no modes of a 1-mode Gaussian state must keep a 2 x 2
covariance (position and momentum), but the code gathers only the position
indices: the returned dimension is 1, not 2 * (N - 0) = 2. -/
theorem c6_trace_gathers_only_positions :
    (GaussianPlugin.trace 2 c6Cov (fun _ => 0) []).1 = 1 ∧
    (GaussianPlugin.trace 2 c6Cov (fun _ => 0) []).1 ≠ 2 * (2 / 2 - ([] : List ℕ).length) := by
  constructor
  · rfl
  · decide

/-! ### Claim C10: lockstep zipping of marked indices -/

theorem zip_eq_zip_take_min {α β : Type} (xs : List α) (ys : List β) :
    xs.zip ys = (xs.take (min xs.length ys.length)).zip (ys.take (min xs.length ys.length)) := by
  induction xs generalizing ys with
  | nil => simp
  | cons x xs ih =>
    cases ys with
    | nil => simp
    | cons y ys =>
      simp only [List.length_cons, Nat.succ_min_succ, List.take_succ_cons, List.zip_cons_cons]
      exact congrArg (List.cons (x, y)) (ih ys)

/-- C10: a contraction with unequal numbers of marked indices raises no error and
behaves exactly like the contraction in which both operands are re-marked with the
first min(k_self, k_other) of their indices: the pairing is a lockstep zip and the
extra marks on the longer side are silently ignored. -/
theorem c10_extra_marks_silently_ignored (x y : ABCData) :
    x.matmul y =
      (x.getitem (x.contract_idxs.take (min x.contract_idxs.length y.contract_idxs.length))).matmul
        (y.getitem (y.contract_idxs.take (min x.contract_idxs.length y.contract_idxs.length))) := by
  simp only [ABCData.matmul, ABCData.getitem, ABCData.and, ABCData.A, ABCData.b, ABCData.c]
  rw [← zip_eq_zip_take_min]

/-! ### Claim C9: persistence of the marked-index annotation -/

/-- C9 amended: __getitem__ leaves A, b, c and the dimension unchanged but stores
the marked indices on the operand object itself, where they persist (nothing ever
clears them after a contraction); only the freshly constructed result of a
contraction carries no marks. -/
theorem c9_getitem_pure_but_marks_persist (d : ABCData) (idx : List ℕ) (x y : ABCData) :
    (d.getitem idx).mat = d.mat ∧ (d.getitem idx).vec = d.vec ∧
    (d.getitem idx).coeffs = d.coeffs ∧ (d.getitem idx).dim = d.dim ∧
    (d.getitem idx).contract_idxs = idx ∧
    (x.matmul y).map MatVecData.contract_idxs = (x.matmul y).map (fun _ => ([] : List ℕ)) := by
  refine ⟨rfl, rfl, rfl, rfl, rfl, ?_⟩
  unfold ABCData.matmul
  cases hE : matmulLoop (x.and y) x.dim
      ⟨(x.and y).dim, (x.and y).A, (x.and y).b, (x.and y).c, none, none⟩
      (x.contract_idxs.zip y.contract_idxs) with
  | error e => rfl
  | ok st => rfl

/-- C9 counterexample: contracting (c9X.getitem [0]) against a marked partner
completes, yet the operand value still carries contract_idxs = [0]; feeding it
unchanged into a later contraction consumes the stale mark (result dimension 0),
whereas the same call with the marks cleared leaves both variables (dimension 2).
The annotation is persistent state that affects later operations. -/
theorem c9_counterexample_stale_marks :
    ((c9X.getitem [0]).matmul (c9X.getitem [0])).map MatVecData.dim = Except.ok 0 ∧
    (c9X.getitem [0]).contract_idxs = [0] ∧
    (((c9X.getitem [0]).getitem []).matmul (c9X.getitem [0])).map MatVecData.dim =
      Except.ok 2 := by
  refine ⟨?_, rfl, rfl⟩
  unfold ABCData.matmul
  simp only [c9X, ABCData.getitem, ABCData.and, ABCData.A, ABCData.b, ABCData.c, matmulLoop,
    matmulStep, exceptMapBatch, stepEntry, sentLt, List.zip_cons_cons, List.zip_nil_right,
    List.flatMap_cons, List.map_cons, List.map_nil, List.flatMap_nil, List.append_nil,
    Bool.false_eq_true, if_false, if_true, Nat.sub_zero, Nat.add_zero, Nat.zero_add,
    reduceIte, Nat.reduceSub, Nat.reduceAdd]
  rw [inv2_ok (show det2 (couplingM (blockDiag 1 (fun _ _ => 0) (fun _ _ => 0)) 0 1) ≠ 0 from by
    norm_num [det2, couplingM, blockDiag])]
  simp only [exc_bind_ok]
  rfl

/-! ### Claim C4: singular coupling block -/

/-- C4: when the 2 x 2 coupling block M built from the marked-marked entries of
the joint A (first marked pair, first batch entry) is non-invertible, the
contraction fails with SingularContraction; the error propagates to the caller
through every bind and no triple is returned. -/
theorem c4_singular_coupling_raises (x y : ABCData) (i j : ℕ) (is js : List ℕ)
    (a : CMat) (ma : List CMat) (bv : CVec) (mb : List CVec) (c : ℂ) (mc : List ℂ)
    (hxi : x.contract_idxs = i :: is) (hyj : y.contract_idxs = j :: js)
    (hm : (x.and y).mat = a :: ma) (hv : (x.and y).vec = bv :: mb)
    (hc : (x.and y).coeffs = c :: mc)
    (hdet : det2 (couplingM a i (j + x.dim)) = 0) :
    x.matmul y = .error .SingularContraction := by
  unfold ABCData.matmul
  rw [hxi, hyj, List.zip_cons_cons]
  simp only [matmulLoop]
  rw [matmulStep_err_head (x.and y) x.dim
      ⟨(x.and y).dim, (x.and y).A, (x.and y).b, (x.and y).c, none, none⟩
      (i, j) a bv c .SingularContraction ma mb mc hm hv hc
      (stepEntry_err (inv2_err hdet))]
  rfl

/-- C4 witness: contracting the concrete marked triple c4X (A = [[1]]) with itself
builds the singular block M = [[1, -1], [-1, 1]] and fails with SingularContraction. -/
theorem c4_singular_witness :
    det2 (couplingM (blockDiag 1 (fun _ _ => 1) (fun _ _ => 1)) 0 (0 + c4X.dim)) = 0 ∧
    c4X.matmul c4X = .error .SingularContraction := by
  have hdet : det2 (couplingM (blockDiag 1 (fun _ _ => 1) (fun _ _ => 1)) 0 (0 + c4X.dim)) = 0 := by
    norm_num [det2, couplingM, blockDiag, c4X]
  exact ⟨hdet, c4_singular_coupling_raises c4X c4X 0 0 [] []
    (blockDiag 1 (fun _ _ => 1) (fun _ _ => 1)) [] (vecConcat 1 (fun _ => 0) (fun _ => 0)) []
    (1 * 1) [] rfl rfl rfl rfl rfl hdet⟩

/-! ### Claim C5: addition of batched data -/

/-- C5 counterexample: adding a triple to itself takes the same-mat-and-vec
branch, which merges the batch and sums the coefficients elementwise; the result
batch has one entry with coefficient 2, not the claimed concatenation of the two
summed-term lists with unchanged entries. -/
theorem c5_counterexample_add_merges :
    (c5X.add c5X).coeffs.length = 1 ∧ (c5X.add c5X).coeffs ≠ c5X.coeffs ++ c5X.coeffs := by
  have hsame : sameMatVec c5X c5X := ⟨rfl, rfl⟩
  have h : c5X.add c5X =
      ⟨c5X.dim, c5X.mat, c5X.vec, List.zipWith (· + ·) c5X.coeffs c5X.coeffs, []⟩ := by
    unfold MatVecData.add
    rw [if_pos hsame]
  rw [h]
  refine ⟨rfl, fun hco => ?_⟩
  have hlen := congrArg List.length hco
  simp [c5X] at hlen

theorem termSum_add (A : List CMat) (B : List CVec) (c1 c2 : List ℂ) (n : ℕ) (x : CVec)
    (h1 : A.length = c1.length) (h2 : B.length = c1.length) (h3 : c2.length = c1.length) :
    ((A.zip (B.zip (List.zipWith (· + ·) c1 c2))).map
        (fun t => t.2.2 * qexp n t.1 t.2.1 x)).sum =
      ((A.zip (B.zip c1)).map (fun t => t.2.2 * qexp n t.1 t.2.1 x)).sum +
        ((A.zip (B.zip c2)).map (fun t => t.2.2 * qexp n t.1 t.2.1 x)).sum := by
  induction A generalizing B c1 c2 with
  | nil => simp
  | cons a as ih =>
    cases B with
    | nil => simp
    | cons b bs =>
      cases c1 with
      | nil =>
        cases c2 with
        | nil => simp
        | cons γ2 γs2 => simp at h3
      | cons γ1 γs1 =>
        cases c2 with
        | nil => simp at h3
        | cons γ2 γs2 =>
          simp only [List.zipWith_cons_cons, List.zip_cons_cons, List.map_cons, List.sum_cons]
          rw [ih bs γs1 γs2 (by simpa using h1) (by simpa using h2) (by simpa using h3)]
          ring

/-- C5 amended: when the operands carry identical mat and vec batches, addition
merges them into a single batch whose coefficients are the elementwise sums, so
the represented function is the pointwise sum of the operands (no concatenation,
entries of c changed); this is the branch the source takes instead of the
claimed unconditional batch concatenation. -/
theorem c5_add_same_branch_merges (x y : MatVecData)
    (hm : x.mat = y.mat) (hv : x.vec = y.vec) (hd : x.dim = y.dim)
    (h1 : x.mat.length = x.coeffs.length) (h2 : x.vec.length = x.coeffs.length)
    (h3 : y.coeffs.length = x.coeffs.length) :
    (x.add y).mat = x.mat ∧ (x.add y).vec = x.vec ∧
    (x.add y).coeffs = List.zipWith (· + ·) x.coeffs y.coeffs ∧
    ∀ t : CVec, ABCData.value (x.add y) t = ABCData.value x t + ABCData.value y t := by
  have hadd : x.add y =
      ⟨x.dim, x.mat, x.vec, List.zipWith (· + ·) x.coeffs y.coeffs, []⟩ := by
    unfold MatVecData.add
    rw [if_pos ⟨hm, hv⟩]
  refine ⟨by rw [hadd], by rw [hadd], by rw [hadd], fun t => ?_⟩
  rw [hadd]
  unfold ABCData.value
  simp only [ABCData.A, ABCData.b, ABCData.c]
  rw [termSum_add x.mat x.vec x.coeffs y.coeffs x.dim t h1 h2 h3]
  rw [show (⟨x.dim, x.mat, x.vec, List.zipWith (· + ·) x.coeffs y.coeffs, ([] : List ℕ)⟩ :
    MatVecData).dim = x.dim from rfl]
  rw [hm, hv, hd]

/-- C5 witness: the merging branch evaluated on the concrete single-term batch. -/
theorem c5_add_same_branch_witness :
    (c5X.mat = c5X.mat ∧ c5X.vec = c5X.vec ∧ c5X.dim = c5X.dim ∧
      c5X.mat.length = c5X.coeffs.length ∧ c5X.vec.length = c5X.coeffs.length ∧
      c5X.coeffs.length = c5X.coeffs.length) ∧
    (c5X.add c5X).coeffs = List.zipWith (· + ·) c5X.coeffs c5X.coeffs ∧
    ABCData.value (c5X.add c5X) (fun _ => 0) = ABCData.value c5X (fun _ => 0) + ABCData.value c5X (fun _ => 0) := by
  refine ⟨⟨rfl, rfl, rfl, rfl, rfl, rfl⟩, ?_, ?_⟩
  · exact (c5_add_same_branch_merges c5X c5X rfl rfl rfl rfl rfl rfl).2.2.1
  · exact (c5_add_same_branch_merges c5X c5X rfl rfl rfl rfl rfl rfl).2.2.2 (fun _ => 0)

/-! ### Claim C8: tensor product -/

theorem matvecC_blockDiag_lo (n m : ℕ) (a1 a2 : CMat) (w : CVec) (r : ℕ) (hr : r < n) :
    matvecC (n + m) (blockDiag n a1 a2) w r = matvecC n a1 w r := by
  unfold matvecC
  rw [Finset.sum_range_add]
  have h2 : ∑ s in Finset.range m, blockDiag n a1 a2 r (n + s) * w (n + s) = 0 := by
    refine Finset.sum_eq_zero fun s _ => ?_
    simp [blockDiag, hr, Nat.not_lt.mpr (Nat.le_add_right n s)]
  rw [h2, add_zero]
  refine Finset.sum_congr rfl fun s hs => ?_
  simp [blockDiag, hr, Finset.mem_range.mp hs]

theorem matvecC_blockDiag_hi (n m : ℕ) (a1 a2 : CMat) (w : CVec) (r : ℕ) :
    matvecC (n + m) (blockDiag n a1 a2) w (n + r) = matvecC m a2 (fun t => w (n + t)) r := by
  unfold matvecC
  rw [Finset.sum_range_add]
  have h1 : ∑ s in Finset.range n, blockDiag n a1 a2 (n + r) s * w s = 0 := by
    refine Finset.sum_eq_zero fun s hs => ?_
    simp [blockDiag, Nat.not_lt.mpr (Nat.le_add_right n r), Finset.mem_range.mp hs]
  rw [h1, zero_add]
  refine Finset.sum_congr rfl fun s _ => ?_
  simp [blockDiag, Nat.not_lt.mpr (Nat.le_add_right n r), Nat.not_lt.mpr (Nat.le_add_right n s),
    Nat.add_sub_cancel_left]

theorem qexp_blockDiag (n m : ℕ) (a1 a2 : CMat) (b1 b2 : CVec) (w : CVec) :
    qexp (n + m) (blockDiag n a1 a2) (vecConcat n b1 b2) w =
      qexp n a1 b1 w * qexp m a2 b2 (fun t => w (n + t)) := by
  unfold qexp
  rw [← Complex.exp_add]
  congr 1
  rw [Finset.sum_range_add, Finset.sum_range_add]
  have hq1 : ∑ r in Finset.range n, w r * matvecC (n + m) (blockDiag n a1 a2) w r
      = ∑ r in Finset.range n, w r * matvecC n a1 w r :=
    Finset.sum_congr rfl fun r hr => by
      rw [matvecC_blockDiag_lo n m a1 a2 w r (Finset.mem_range.mp hr)]
  have hq2 : ∑ r in Finset.range m, w (n + r) * matvecC (n + m) (blockDiag n a1 a2) w (n + r)
      = ∑ r in Finset.range m, w (n + r) * matvecC m a2 (fun t => w (n + t)) r :=
    Finset.sum_congr rfl fun r _ => by rw [matvecC_blockDiag_hi]
  have hl1 : ∑ r in Finset.range n, w r * vecConcat n b1 b2 r
      = ∑ r in Finset.range n, w r * b1 r :=
    Finset.sum_congr rfl fun r hr => by simp [vecConcat, Finset.mem_range.mp hr]
  have hl2 : ∑ r in Finset.range m, w (n + r) * vecConcat n b1 b2 (n + r)
      = ∑ r in Finset.range m, w (n + r) * b2 r :=
    Finset.sum_congr rfl fun r _ => by
      simp [vecConcat, Nat.not_lt.mpr (Nat.le_add_right n r), Nat.add_sub_cancel_left]
  rw [hq1, hq2, hl1, hl2]
  ring

theorem length_flatMap_map_mul {α β γ : Type} (L1 : List α) (L2 : List β) (F : α → β → γ) :
    (L1.flatMap fun a => L2.map (F a)).length = L1.length * L2.length := by
  induction L1 with
  | nil => simp
  | cons a as ih =>
    simp only [List.flatMap_cons, List.length_append, List.length_map, List.length_cons, ih]
    ring

theorem flatMap_map_getD {α β γ : Type} (L1 : List α) (L2 : List β) (F : α → β → γ)
    (dfa : α) (dfb : β) (dfc : γ) (i j : ℕ) (hi : i < L1.length) (hj : j < L2.length) :
    (L1.flatMap fun a => L2.map (F a)).getD (i * L2.length + j) dfc =
      F (L1.getD i dfa) (L2.getD j dfb) := by
  induction L1 generalizing i with
  | nil => simp at hi
  | cons a as ih =>
    cases i with
    | zero =>
      simp only [List.flatMap_cons, Nat.zero_mul, Nat.zero_add, List.getD_cons_zero]
      rw [List.getD_append _ _ _ _ (by simpa using hj)]
      rw [List.getD_eq_getElem _ _ (by simpa using hj), List.getElem_map,
        ← List.getD_eq_getElem L2 dfb hj]
    | succ i2 =>
      have hidx : (i2 + 1) * L2.length + j = L2.length + (i2 * L2.length + j) := by ring
      simp only [List.flatMap_cons, hidx, List.getD_cons_succ]
      rw [List.getD_append_right _ _ _ _ (by simp [Nat.le_add_right])]
      simp only [List.length_map, Nat.add_sub_cancel_left]
      exact ih i2 (by simpa using hi)

theorem termSum_map_factor (A2 : List CMat) (B2 : List CVec) (C2 : List ℂ)
    (a1 : CMat) (b1 : CVec) (c1 : ℂ) (n m : ℕ) (w : CVec) :
    (((A2.map fun a2 => blockDiag n a1 a2).zip
        ((B2.map fun b2 => vecConcat n b1 b2).zip (C2.map fun c2 => c1 * c2))).map
        (fun t => t.2.2 * qexp (n + m) t.1 t.2.1 w)).sum =
      (c1 * qexp n a1 b1 w) *
        ((A2.zip (B2.zip C2)).map
          (fun t => t.2.2 * qexp m t.1 t.2.1 (fun t2 => w (n + t2)))).sum := by
  induction A2 generalizing B2 C2 with
  | nil => simp
  | cons a2 as ih =>
    cases B2 with
    | nil => simp
    | cons b2 bs =>
      cases C2 with
      | nil => simp
      | cons γ γs =>
        simp only [List.map_cons, List.zip_cons_cons, List.sum_cons]
        rw [ih bs γs, qexp_blockDiag]
        ring

theorem termSum_flatMap_product (A1 : List CMat) (B1 : List CVec) (C1 : List ℂ)
    (A2 : List CMat) (B2 : List CVec) (C2 : List ℂ) (n m : ℕ) (w : CVec)
    (hA : A2.length = C2.length) (hB : B2.length = C2.length) :
    (((A1.flatMap fun a1 => A2.map fun a2 => blockDiag n a1 a2).zip
        ((B1.flatMap fun b1 => B2.map fun b2 => vecConcat n b1 b2).zip
          (C1.flatMap fun c1 => C2.map fun c2 => c1 * c2))).map
        (fun t => t.2.2 * qexp (n + m) t.1 t.2.1 w)).sum =
      ((A1.zip (B1.zip C1)).map (fun t => t.2.2 * qexp n t.1 t.2.1 w)).sum *
        ((A2.zip (B2.zip C2)).map
          (fun t => t.2.2 * qexp m t.1 t.2.1 (fun t2 => w (n + t2)))).sum := by
  induction A1 generalizing B1 C1 with
  | nil => simp
  | cons a1 as1 ih =>
    cases B1 with
    | nil => simp
    | cons b1 bs1 =>
      cases C1 with
      | nil => simp
      | cons c1 cs1 =>
        simp only [List.flatMap_cons, List.zip_cons_cons]
        rw [List.zip_append (by simp [hB])]
        rw [List.zip_append (by simp [List.length_zip, List.length_map, hA, hB])]
        rw [List.map_append, List.sum_append]
        rw [termSum_map_factor, ih bs1 cs1]
        simp only [List.map_cons, List.zip_cons_cons, List.sum_cons]
        ring

/-- C8: the tensor product has batch size len(self) * len(other); its (i, j)
batch entry is (block_diag(A_i, A_j2), concat(b_i, b_j2), c_i * c_j2); and the
represented function is the product of the two functionals on disjoint variable
blocks (other evaluated on the variables shifted past self.dim). -/
theorem c8_tensor_product_structure (x y : ABCData)
    (hxm : x.mat.length = x.coeffs.length) (hxv : x.vec.length = x.coeffs.length)
    (hym : y.mat.length = y.coeffs.length) (hyv : y.vec.length = y.coeffs.length)
    (i j : ℕ) (hi : i < x.coeffs.length) (hj : j < y.coeffs.length) :
    (x.and y).coeffs.length = x.coeffs.length * y.coeffs.length ∧
    (x.and y).mat.getD (i * y.coeffs.length + j) (fun _ _ => 0) =
      blockDiag x.dim (x.mat.getD i (fun _ _ => 0)) (y.mat.getD j (fun _ _ => 0)) ∧
    (x.and y).vec.getD (i * y.coeffs.length + j) (fun _ => 0) =
      vecConcat x.dim (x.vec.getD i (fun _ => 0)) (y.vec.getD j (fun _ => 0)) ∧
    (x.and y).coeffs.getD (i * y.coeffs.length + j) 0 =
      x.coeffs.getD i 0 * y.coeffs.getD j 0 ∧
    ∀ w : CVec, ABCData.value (x.and y) w =
      ABCData.value x w * ABCData.value y (fun t => w (x.dim + t)) := by
  refine ⟨?_, ?_, ?_, ?_, fun w => ?_⟩
  · simp only [ABCData.and]
    exact length_flatMap_map_mul x.coeffs y.coeffs (· * ·)
  · simp only [ABCData.and]
    rw [← hym]
    exact flatMap_map_getD x.mat y.mat (blockDiag x.dim) (fun _ _ => 0) (fun _ _ => 0)
      (fun _ _ => 0) i j (by omega) (by omega)
  · simp only [ABCData.and]
    rw [← hyv]
    exact flatMap_map_getD x.vec y.vec (vecConcat x.dim) (fun _ => 0) (fun _ => 0)
      (fun _ => 0) i j (by omega) (by omega)
  · simp only [ABCData.and]
    have h := flatMap_map_getD x.coeffs y.coeffs (· * ·) 0 0 0 i j (by omega) (by omega)
    exact h
  · simp only [ABCData.value, ABCData.A, ABCData.b, ABCData.c, ABCData.and]
    exact termSum_flatMap_product x.mat x.vec x.coeffs y.mat y.vec y.coeffs x.dim y.dim w
      (by omega) (by omega)

/-- C8 witness: the tensor product structure evaluated on the concrete
single-entry triple c9X paired with itself at batch position (0, 0). -/
theorem c8_tensor_product_witness :
    (c9X.mat.length = c9X.coeffs.length ∧ c9X.vec.length = c9X.coeffs.length ∧
      0 < c9X.coeffs.length) ∧
    ((c9X.and c9X).coeffs.length = c9X.coeffs.length * c9X.coeffs.length ∧
      (c9X.and c9X).mat.getD (0 * c9X.coeffs.length + 0) (fun _ _ => 0) =
        blockDiag c9X.dim (c9X.mat.getD 0 (fun _ _ => 0)) (c9X.mat.getD 0 (fun _ _ => 0)) ∧
      (c9X.and c9X).vec.getD (0 * c9X.coeffs.length + 0) (fun _ => 0) =
        vecConcat c9X.dim (c9X.vec.getD 0 (fun _ => 0)) (c9X.vec.getD 0 (fun _ => 0)) ∧
      (c9X.and c9X).coeffs.getD (0 * c9X.coeffs.length + 0) 0 =
        c9X.coeffs.getD 0 0 * c9X.coeffs.getD 0 0 ∧
      ∀ w : CVec, ABCData.value (c9X.and c9X) w =
        ABCData.value c9X w * ABCData.value c9X (fun t => w (c9X.dim + t))) :=
  ⟨⟨rfl, rfl, by decide⟩,
    c8_tensor_product_structure c9X c9X rfl rfl rfl rfl 0 0 (by decide) (by decide)⟩

/-! ### Claim C3: general_dyne -/

theorem bIndices_eval : bIndicesL [0] 2 = [1, 3] := rfl

theorem aIndices_eval : aIndicesL [0] 2 = [0, 2] := rfl

theorem c3_bpc_one :
    toFinR 2 (fun r s => (partition_cov 4 gdCov [0]).2.1 r s + gdZeroM r s) = 1 := by
  ext i j
  fin_cases i <;> fin_cases j <;>
    simp [toFinR, partition_cov, gatherRowsR, gatherColsR, bIndices_eval, aIndices_eval,
      gdCov, gdZeroM, Matrix.one_apply]

theorem c3_inv_eval :
    invR 2 (fun r s => (partition_cov 4 gdCov [0]).2.1 r s + gdZeroM r s) =
      ofFinR (1 : Matrix (Fin 2) (Fin 2) ℝ) := by
  unfold invR
  rw [c3_bpc_one, inv_one]

theorem c3_det_eval :
    detR 2 (fun r s => (partition_cov 4 gdCov [0]).2.1 r s + gdZeroM r s) = 1 := by
  unfold detR
  rw [c3_bpc_one, Matrix.det_one]

theorem c3_prob_A :
    (general_dyne 4 gdCov gdMeansA 2 gdZeroM gdProjA [1] 2).prob =
      Real.exp (-19) / (Real.pi * (1 / 2)) := by
  simp only [general_dyne]
  norm_num
  rw [show List.filter (fun i => !decide (i = 1)) (List.range 2) = [0] from rfl]
  rw [c3_inv_eval, c3_det_eval]
  rw [Finset.sum_range_succ, Finset.sum_range_succ, Finset.sum_range_succ,
    Finset.sum_range_succ]
  simp only [Finset.range_zero, Finset.sum_empty]
  unfold matvecR
  rw [Finset.sum_range_succ, Finset.sum_range_succ, Finset.sum_range_succ,
    Finset.sum_range_succ]
  simp only [Finset.range_zero, Finset.sum_empty]
  norm_num [ofFinR, Matrix.one_apply, partition_means, gatherVecR, bIndices_eval,
    aIndices_eval, gdMeansA, gdProjA]

theorem c3_prob_B :
    (general_dyne 4 gdCov (fun _ => 0) 2 gdZeroM gdProjB [1] 2).prob =
      Real.exp (-16) / (Real.pi * (1 / 2)) := by
  simp only [general_dyne]
  norm_num
  rw [show List.filter (fun i => !decide (i = 1)) (List.range 2) = [0] from rfl]
  rw [c3_inv_eval, c3_det_eval]
  rw [Finset.sum_range_succ, Finset.sum_range_succ, Finset.sum_range_succ,
    Finset.sum_range_succ]
  simp only [Finset.range_zero, Finset.sum_empty]
  unfold matvecR
  rw [Finset.sum_range_succ, Finset.sum_range_succ, Finset.sum_range_succ,
    Finset.sum_range_succ]
  simp only [Finset.range_zero, Finset.sum_empty]
  norm_num [ofFinR, Matrix.one_apply, partition_means, gatherVecR, bIndices_eval,
    aIndices_eval, gdProjB]

/-- C3: two inputs with the same covariance, projector covariance and identical
difference proj_means - b (both equal (4, 0) on the measured block), on which the
code returns different outcome probabilities: exp(-19)/(pi/2) versus
exp(-16)/(pi/2).  The source line sums matvec(inv, proj_means - b) * proj_means - b
(precedence bug), which is not the Gaussian overlap quadratic form in
(proj_means - b); the covariance and means updates are unaffected. -/
theorem c3_prob_depends_on_more_than_difference :
    (∀ r : ℕ, gdProjA r - (partition_means 4 gdMeansA [0]).2 r
      = gdProjB r - (partition_means 4 (fun _ => 0) [0]).2 r) ∧
    (general_dyne 4 gdCov gdMeansA 2 gdZeroM gdProjA [1] 2).prob ≠
      (general_dyne 4 gdCov (fun _ => 0) 2 gdZeroM gdProjB [1] 2).prob := by
  constructor
  · intro r
    match r with
    | 0 => norm_num [partition_means, gatherVecR, bIndices_eval, gdMeansA, gdProjA, gdProjB]
    | 1 => norm_num [partition_means, gatherVecR, bIndices_eval, gdMeansA, gdProjA, gdProjB]
    | r + 2 =>
      have hd : (bIndicesL [0] 2)[r + 2]?.getD 0 = 0 := by
        rw [bIndices_eval]
        rfl
      norm_num [partition_means, gatherVecR, hd, gdMeansA, gdProjA, gdProjB]
  · rw [c3_prob_A, c3_prob_B]
    intro h
    have hpi : Real.pi * (1 / 2) ≠ 0 := by
      have := Real.pi_ne_zero
      positivity
    have hexp : Real.exp (-19) = Real.exp (-16) := by
      field_simp at h
      linarith [h]
    rw [Real.exp_eq_exp] at hexp
    norm_num at hexp

/-! ### Claim C7: purity -/

theorem posSemidef_smul_nonneg {n : ℕ} {A : Matrix (Fin n) (Fin n) ℝ}
    (h : A.PosSemidef) {c : ℝ} (hc : 0 ≤ c) : (c • A).PosSemidef := by
  refine ⟨?_, fun x => ?_⟩
  · have h1 := h.1
    unfold Matrix.IsHermitian at h1 ⊢
    rw [Matrix.conjTranspose_smul, h1, star_trivial]
  · rw [Matrix.smul_mulVec_assoc, Matrix.dotProduct_smul]
    exact smul_nonneg hc (h.2 x)

theorem one_le_eigenvalues_of_sub_one_posSemidef {n : ℕ} {A : Matrix (Fin n) (Fin n) ℝ}
    (hA : A.IsHermitian) (h : (A - 1).PosSemidef) (i : Fin n) :
    1 ≤ hA.eigenvalues i := by
  have hv := h.2 ⇑(hA.eigenvectorBasis i)
  rw [Matrix.sub_mulVec, Matrix.one_mulVec, Matrix.dotProduct_sub] at hv
  have h1 : Matrix.dotProduct (star ⇑(hA.eigenvectorBasis i))
      (A.mulVec ⇑(hA.eigenvectorBasis i)) = hA.eigenvalues i := by
    simpa using (hA.eigenvalues_eq i).symm
  have h2 : Matrix.dotProduct (star ⇑(hA.eigenvectorBasis i)) ⇑(hA.eigenvectorBasis i) = 1 := by
    have hn : ‖hA.eigenvectorBasis i‖ = 1 := hA.eigenvectorBasis.orthonormal.1 i
    have hi : (inner (hA.eigenvectorBasis i) (hA.eigenvectorBasis i) : ℝ) = 1 := by
      rw [real_inner_self_eq_norm_sq, hn]
      norm_num
    rw [EuclideanSpace.inner_eq_star_dotProduct] at hi
    exact hi
  rw [h1, h2] at hv
  linarith

theorem one_le_det_of_sub_one_posSemidef {n : ℕ} {A : Matrix (Fin n) (Fin n) ℝ}
    (hA : A.IsHermitian) (h : (A - 1).PosSemidef) : 1 ≤ A.det := by
  have hev : ∀ i, 1 ≤ hA.eigenvalues i := one_le_eigenvalues_of_sub_one_posSemidef hA h
  have hprod : (1 : ℝ) ≤ ∏ i, hA.eigenvalues i := by
    calc (1 : ℝ) = ∏ _i : Fin n, (1 : ℝ) := by simp
    _ ≤ ∏ i, hA.eigenvalues i :=
      Finset.prod_le_prod (fun i _ => zero_le_one) (fun i _ => hev i)
  have hdet := hA.det_eq_prod_eigenvalues
  rw [hdet]
  simpa using hprod

/-- C7: purity is 1 / sqrt(det((2/hbar) cov)); for every symmetric
positive-definite cov satisfying the uncertainty bound cov - (hbar/2) I ⪰ 0 the
value lies in (0, 1], with purity = 1 exactly when det((2/hbar) cov) = 1. -/
theorem c7_purity_formula_and_bound (n : ℕ) (cov : Matrix (Fin n) (Fin n) ℝ) (hbar : ℝ)
    (hh : 0 < hbar) (hpd : cov.PosDef) (hunc : (cov - (hbar / 2) • 1).PosSemidef) :
    purity cov hbar = 1 / Real.sqrt (((2 / hbar) • cov).det) ∧
    0 < purity cov hbar ∧ purity cov hbar ≤ 1 ∧
    (purity cov hbar = 1 ↔ ((2 / hbar) • cov).det = 1) := by
  have hA : ((2 / hbar) • cov).IsHermitian := by
    have h1 := hpd.1
    unfold Matrix.IsHermitian at h1 ⊢
    rw [Matrix.conjTranspose_smul, h1, star_trivial]
  have hco : (2 / hbar) * (hbar / 2) = 1 := by
    field_simp
  have hsub : ((2 / hbar) • cov - 1) = (2 / hbar) • (cov - (hbar / 2) • 1) := by
    rw [smul_sub, smul_smul, hco, one_smul]
  have hps : ((2 / hbar) • cov - 1).PosSemidef := by
    rw [hsub]
    exact posSemidef_smul_nonneg hunc (by positivity)
  have hdet1 : 1 ≤ ((2 / hbar) • cov).det := one_le_det_of_sub_one_posSemidef hA hps
  have hs1 : 1 ≤ Real.sqrt (((2 / hbar) • cov).det) := by
    rw [show (1 : ℝ) = Real.sqrt 1 from (Real.sqrt_one).symm]
    exact Real.sqrt_le_sqrt (by simpa using hdet1)
  have hspos : 0 < Real.sqrt (((2 / hbar) • cov).det) := lt_of_lt_of_le one_pos hs1
  refine ⟨rfl, ?_, ?_, ?_⟩
  · exact div_pos one_pos hspos
  · unfold purity
    rw [div_le_one hspos]
    exact hs1
  · unfold purity
    constructor
    · intro hp
      rw [div_eq_one_iff_eq hspos.ne'] at hp
      have hsq := hp.symm
      rwa [Real.sqrt_eq_one] at hsq
    · intro hd
      rw [hd, Real.sqrt_one]
      norm_num

/-- C7 witness: the single-mode squeezed-free case cov = I at hbar = 2 saturates the
bound; purity is exactly 1. -/
theorem c7_purity_witness :
    ((0 : ℝ) < 2 ∧ (1 : Matrix (Fin 1) (Fin 1) ℝ).PosDef ∧
      ((1 : Matrix (Fin 1) (Fin 1) ℝ) - ((2 : ℝ) / 2) • 1).PosSemidef) ∧
    (purity (1 : Matrix (Fin 1) (Fin 1) ℝ) 2 =
        1 / Real.sqrt ((((2 : ℝ) / 2) • (1 : Matrix (Fin 1) (Fin 1) ℝ)).det) ∧
      0 < purity (1 : Matrix (Fin 1) (Fin 1) ℝ) 2 ∧
      purity (1 : Matrix (Fin 1) (Fin 1) ℝ) 2 ≤ 1 ∧
      (purity (1 : Matrix (Fin 1) (Fin 1) ℝ) 2 = 1 ↔
        (((2 : ℝ) / 2) • (1 : Matrix (Fin 1) (Fin 1) ℝ)).det = 1)) := by
  have hz : (1 : Matrix (Fin 1) (Fin 1) ℝ) - ((2 : ℝ) / 2) • 1 = 0 := by
    norm_num
  refine ⟨⟨by norm_num, Matrix.PosDef.one, ?_⟩,
    c7_purity_formula_and_bound 1 1 2 (by norm_num) Matrix.PosDef.one ?_⟩
  · rw [hz]
    exact Matrix.PosSemidef.zero
  · rw [hz]
    exact Matrix.PosSemidef.zero

end MrMustard
